import Mathlib

/-! The reader-writer lock of lr2_parallel (`src/index.cpp`).

A shallow embedding of `class ReaderWriterLock`, of the thread functions
`reader` and `writer` that use it, and of the arithmetic of `runTest`.

Modelling decisions.

* Every member function of `ReaderWriterLock` takes `mtx` for its whole body, so
  each call that gets past its `cv.wait` is one atomic transition of the pair
  `(readers, writer)`.  `cv.wait(lock, pred)` is `while (!pred()) wait(lock)`:
  the call goes on only from a state in which `pred` holds.  A call whose
  predicate is false has no transition (`none`).
* `int readers` holds the values from `-2147483648` to `2147483647`.  The
  increment `readers++` at `2147483647` and the decrement `--readers` at
  `-2147483648` overflow, which is undefined behaviour in C++: they are the
  result `overflow` of `startRead` and `endRead`, and a sequence of calls or an
  interleaving that runs into one has no value.  `readers_eq_holding` and
  `reachable_no_overflow` below show that under the use made by `reader` the
  counter equals the number of threads between `startRead` and `endRead`, so
  that fewer than `2147483647` threads never overflow it.
  The loop counter `i` of a thread stays between 0 and its `int` bound.
  In `runTest`, whose arguments are arbitrary, overflow of the `int` product and
  of the `long long` quotient are explicit error results.
* The sleeps, the clock readings and the console output do not touch the lock;
  the accumulated wait times are inputs of the arithmetic of `runTest`.
-/

namespace Lr2Parallel

/-! ## The lock (index.cpp:9-40) -/

/-- The two data members `int readers = 0; bool writer = false;` of
`class ReaderWriterLock` (index.cpp:13-14). -/
structure ReaderWriterLock where
  readers : Int
  writer : Bool
deriving DecidableEq, Repr

/-- How a call of a member function that waits or computes on `int readers`
comes out: it returns, it stays in `cv.wait`, or its arithmetic overflows the
`int` (undefined behaviour). -/
inductive Outcome (α : Type) where
  | returns (a : α)
  | waits
  | overflow
deriving DecidableEq, Repr

/-- The value of a call that returns; `none` when it waits or overflows. -/
def Outcome.toOption {α : Type} : Outcome α → Option α
  | .returns a => some a
  | .waits => none
  | .overflow => none

namespace ReaderWriterLock

/-- The default member initialisers: `readers = 0`, `writer = false`. -/
def init : ReaderWriterLock := { readers := 0, writer := false }

/-- The wait predicate of `startRead` (index.cpp:19): `return !writer;`. -/
def startReadPred (s : ReaderWriterLock) : Bool := !s.writer

/-- `startRead` (index.cpp:17-21): wait for `!writer`, then `readers++`.
`waits` when the predicate is false (the caller stays in `cv.wait`);
`overflow` when the predicate holds and `readers` is already `INT_MAX`. -/
def startRead (s : ReaderWriterLock) : Outcome ReaderWriterLock :=
  if s.startReadPred then
    if s.readers < 2147483647 then .returns { s with readers := s.readers + 1 }
    else .overflow
  else .waits

/-- `endRead` (index.cpp:23-27): `if (--readers == 0) cv.notify_all();`.
The second component says whether `notify_all` was called.  `overflow` when
`readers` is already `INT_MIN`; there is no wait. -/
def endRead (s : ReaderWriterLock) : Outcome (ReaderWriterLock × Bool) :=
  if -2147483648 < s.readers then
    let readers := s.readers - 1
    .returns ({ s with readers := readers }, readers == 0)
  else .overflow

/-- The wait predicate of `startWrite` (index.cpp:31):
`return !writer && readers == 0;`. -/
def startWritePred (s : ReaderWriterLock) : Bool := !s.writer && s.readers == 0

/-- `startWrite` (index.cpp:29-33): wait for `!writer && readers == 0`, then
`writer = true`.  `none` when the predicate is false. -/
def startWrite (s : ReaderWriterLock) : Option ReaderWriterLock :=
  if s.startWritePred then some { s with writer := true } else none

/-- `endWrite` (index.cpp:35-39): `writer = false; cv.notify_all();`.
The second component says whether `notify_all` was called. -/
def endWrite (s : ReaderWriterLock) : ReaderWriterLock × Bool :=
  ({ s with writer := false }, true)

end ReaderWriterLock

/-- The four public member functions of `ReaderWriterLock`. -/
inductive LockOp where
  | startRead
  | endRead
  | startWrite
  | endWrite
deriving DecidableEq, Repr

/-- One call of a public member function on the lock: the new state and whether
the call executed `cv.notify_all()`; `none` when the call waits or overflows
`readers`.  `startRead` and `startWrite` contain no `notify_all`. -/
def call (op : LockOp) (s : ReaderWriterLock) : Option (ReaderWriterLock × Bool) :=
  match op with
  | .startRead => s.startRead.toOption.map fun t => (t, false)
  | .endRead => s.endRead.toOption
  | .startWrite => s.startWrite.map fun t => (t, false)
  | .endWrite => some s.endWrite

/-- A finite sequence of calls on one lock, in the order in which they get the
mutex; `none` as soon as one of them would wait or overflow `readers`. -/
def callAll : List LockOp → ReaderWriterLock → Option ReaderWriterLock
  | [], s => some s
  | op :: ops, s =>
    match call op s with
    | some r => callAll ops r.1
    | none => none

/-! ## The thread functions (index.cpp:46-96) -/

/-- The control state of a thread running `reader` or `writer`: the loop
counter `i` and whether the thread is between its `start...` and its `end...`
call of the current iteration. -/
structure Frame where
  i : Int
  holding : Bool
deriving DecidableEq, Repr

/-- What one lock call of a thread did: the lock after it, the thread after it,
which member function ran and whether it called `notify_all`. -/
structure Fired where
  lock : ReaderWriterLock
  frame : Frame
  op : LockOp
  notified : Bool
deriving DecidableEq, Repr

/-- The next lock call of `reader(id, readCount)` (index.cpp:46-70):
`for (int i = 0; i < readCount; ++i) { rwLock.startRead(); ...; rwLock.endRead(); ... }`.
`none` when `startRead` waits, when the loop has ended, or when the call
overflows `readers`. -/
def reader (readCount : Int) (l : ReaderWriterLock) (f : Frame) : Option Fired :=
  if f.holding then
    match l.endRead with
    | .returns r => some { lock := r.1, frame := { i := f.i + 1, holding := false },
                           op := .endRead, notified := r.2 }
    | _ => none
  else if f.i < readCount then
    match l.startRead with
    | .returns l1 => some { lock := l1, frame := { i := f.i, holding := true },
                            op := .startRead, notified := false }
    | _ => none
  else none

/-- The next lock call of `writer(id, writeCount)` (index.cpp:72-96):
`for (int i = 0; i < writeCount; ++i) { rwLock.startWrite(); ...; rwLock.endWrite(); ... }`.
`none` when `startWrite` waits or the loop has ended. -/
def writer (writeCount : Int) (l : ReaderWriterLock) (f : Frame) : Option Fired :=
  if f.holding then
    let r := l.endWrite
    some { lock := r.1, frame := { i := f.i + 1, holding := false },
           op := .endWrite, notified := r.2 }
  else if f.i < writeCount then
    match l.startWrite with
    | some l1 => some { lock := l1, frame := { i := f.i, holding := true },
                        op := .startWrite, notified := false }
    | none => none
  else none

/-- Which of the two thread functions a thread runs. -/
inductive Role where
  | reader
  | writer
deriving DecidableEq, Repr

/-- A thread of `runTest`: its function, the operation count it was started
with (`readCount` or `writeCount`) and its control state. -/
structure Worker where
  role : Role
  count : Int
  frame : Frame
deriving DecidableEq, Repr

/-- A thread as `threads.emplace_back(reader, id, count)` starts it: `i = 0`,
outside the lock. -/
def Worker.spawn (role : Role) (count : Int) : Worker :=
  { role := role, count := count, frame := { i := 0, holding := false } }

/-- The loop of the thread has ended: `i < count` is false and no access is
open. -/
def Worker.finished (w : Worker) : Bool := !w.frame.holding && !decide (w.frame.i < w.count)

/-- The next lock call of a thread. -/
def Worker.next (l : ReaderWriterLock) (w : Worker) : Option Fired :=
  match w.role with
  | .reader => reader w.count l w.frame
  | .writer => writer w.count l w.frame

/-- The global `rwLock` together with the threads that use it. -/
structure Machine where
  lock : ReaderWriterLock
  threads : List Worker
deriving DecidableEq, Repr

/-- Thread number `n` makes its next lock call.  `none` when there is no such
thread, when it has ended, when its call waits or when its call overflows
`readers`. -/
def stepAt (n : Nat) (m : Machine) : Option (Machine × LockOp × Bool) :=
  match m.threads[n]? with
  | none => none
  | some w =>
    match w.next m.lock with
    | none => none
    | some r =>
      some ({ lock := r.lock, threads := m.threads.set n { w with frame := r.frame } },
            r.op, r.notified)

/-- An interleaving: the threads make their lock calls in the order given by
the list of thread numbers; `none` when a scheduled call cannot go on or has
no defined result. -/
def exec : List Nat → Machine → Option Machine
  | [], m => some m
  | n :: ns, m =>
    match stepAt n m with
    | some r => exec ns r.1
    | none => none

/-- Any set of threads started on a fresh lock. -/
def start (ws : List (Role × Int)) : Machine :=
  { lock := ReaderWriterLock.init, threads := ws.map fun p => Worker.spawn p.1 p.2 }

/-! ## Quantities read off a machine state -/

/-- The sum of a per-thread quantity over all threads. -/
def tally (f : Worker → Int) (ws : List Worker) : Int := (ws.map f).sum

/-- One for a thread between its `startRead` and its `endRead`, else 0. -/
def Worker.reading (w : Worker) : Int :=
  if w.role = Role.reader ∧ w.frame.holding = true then 1 else 0

/-- One for a thread between its `startWrite` and its `endWrite`, else 0. -/
def Worker.writing (w : Worker) : Int :=
  if w.role = Role.writer ∧ w.frame.holding = true then 1 else 0

/-- The number of lock calls the thread still has to make. -/
def Worker.remaining (w : Worker) : Int :=
  if w.frame.holding = true then 2 * (w.count - w.frame.i) - 1
  else if w.frame.i < w.count then 2 * (w.count - w.frame.i)
  else 0

/-- The read operations the thread has completed (`startRead` ... `endRead`). -/
def Worker.readsDone (w : Worker) : Int :=
  if w.role = Role.reader then w.frame.i else 0

/-- The write operations the thread has completed (`startWrite` ... `endWrite`). -/
def Worker.writesDone (w : Worker) : Int :=
  if w.role = Role.writer then w.frame.i else 0

/-- The read operations the loop of the thread makes in all: `readCount` when
that is positive, else none. -/
def Worker.readQuota (w : Worker) : Int :=
  if w.role = Role.reader then max w.count 0 else 0

/-- The write operations the loop of the thread makes in all. -/
def Worker.writeQuota (w : Worker) : Int :=
  if w.role = Role.writer then max w.count 0 else 0

/-- Every thread has returned from its function (all joins can return). -/
def Machine.allDone (m : Machine) : Bool := m.threads.all Worker.finished

/-- What ties the lock to the threads in every state the threads can reach:
`readers` counts the threads inside a read, `writer` says whether a thread is
inside a write (there is at most one), a write excludes reads, and every
thread is at a point of its loop. -/
def Machine.Consistent (m : Machine) : Prop :=
  m.lock.readers = tally Worker.reading m.threads ∧
  tally Worker.writing m.threads = (if m.lock.writer = true then 1 else 0) ∧
  (m.lock.writer = true → m.lock.readers = 0) ∧
  ∀ w ∈ m.threads, 0 ≤ w.frame.i ∧ (w.frame.holding = true → w.frame.i < w.count) ∧
    (w.frame.i ≤ w.count ∨ w.frame.i = 0)

/-! ## `runTest` (index.cpp:98-117) -/

/-- The threads `runTest` starts (index.cpp:103-106): `numReaders` readers, then
`numWriters` writers; a loop bound that is not positive starts none. -/
def spawned (numReaders numWriters readCount writeCount : Int) : List (Role × Int) :=
  List.replicate numReaders.toNat (Role.reader, readCount) ++
    List.replicate numWriters.toNat (Role.writer, writeCount)

/-- Why the arithmetic of `runTest` has no value. -/
inductive Fault where
  | intOverflow
  | divisionByZero
  | quotientOverflow
deriving DecidableEq, Repr

/-- The product `a * b` of two `int`s: an error outside the range of `int`. -/
def mulInt (a b : Int) : Except Fault Int :=
  if -2147483648 ≤ a * b ∧ a * b ≤ 2147483647 then .ok (a * b) else .error .intOverflow

/-- The quotient `total / d` of `long long`s, `d` converted from `int`: no
check of `d` comes before the division; the quotient truncates toward zero. -/
def divLongLong (total d : Int) : Except Fault Int :=
  if d = 0 then .error .divisionByZero
  else if total = -9223372036854775808 ∧ d = -1 then .error .quotientOverflow
  else .ok (Int.tdiv total d)

/-- The lines after the joins (index.cpp:111-116), with the accumulated
`totalReadWaitTime` and `totalWriteWaitTime` as inputs: the pair
`(avgReadWait, avgWriteWait)` that is printed, or the fault that stops the
program before anything of the summary is printed.  The default arguments
`readCount = 3`, `writeCount = 3` are written out at the calls. -/
def runTest (totalReadWaitTime totalWriteWaitTime : Int)
    (numReaders numWriters readCount writeCount : Int) : Except Fault (Int × Int) := do
  let dr ← mulInt numReaders readCount
  let avgReadWait ← divLongLong totalReadWaitTime dr
  let dw ← mulInt numWriters writeCount
  let avgWriteWait ← divLongLong totalWriteWaitTime dw
  pure (avgReadWait, avgWriteWait)

/-! ## Effect of the two waiting calls -/

/-- The state after a `startRead` that returned. -/
theorem startRead_some (s t : ReaderWriterLock) (h : s.startRead = .returns t) :
    s.writer = false ∧ s.readers < 2147483647 ∧
      t = { readers := s.readers + 1, writer := s.writer } := by
  obtain ⟨r, w⟩ := s
  unfold ReaderWriterLock.startRead ReaderWriterLock.startReadPred at h
  cases w
  · by_cases hr : r < 2147483647
    · simp [hr] at h
      simp [hr, ← h]
    · simp [hr] at h
  · simp at h

/-- The result of an `endRead` that returned. -/
theorem endRead_some (s : ReaderWriterLock) (r : ReaderWriterLock × Bool)
    (h : s.endRead = .returns r) :
    -2147483648 < s.readers ∧
      r = ({ readers := s.readers - 1, writer := s.writer }, s.readers - 1 == 0) := by
  unfold ReaderWriterLock.endRead at h
  by_cases hr : -2147483648 < s.readers
  · simp [hr] at h
    exact ⟨hr, h.symm⟩
  · simp [hr] at h

/-- The state after a `startWrite` that went on. -/
theorem startWrite_some (s t : ReaderWriterLock) (h : s.startWrite = some t) :
    s.writer = false ∧ s.readers = 0 ∧ t = { readers := s.readers, writer := true } := by
  obtain ⟨r, w⟩ := s
  cases w <;> simp [ReaderWriterLock.startWrite, ReaderWriterLock.startWritePred] at h ⊢
  exact ⟨h.1, h.2.symm⟩

/-! ## Contracts of the four member functions -/

/-- C4: `startWrite` goes on exactly from the states with `writer == false` and
`readers == 0`; when it goes on, `writer` is true and `readers` is unchanged
and 0. -/
theorem startWrite_contract (s : ReaderWriterLock) :
    (s.startWritePred = true ↔ s.writer = false ∧ s.readers = 0) ∧
    (s.startWrite.isSome = true ↔ s.writer = false ∧ s.readers = 0) ∧
    (∀ t, s.startWrite = some t →
      t.writer = true ∧ t.readers = s.readers ∧ t.readers = 0) ∧
    (s.writer = false ∧ s.readers = 0 →
      s.startWrite = some { readers := 0, writer := true }) := by
  obtain ⟨r, w⟩ := s
  cases w <;> simp [ReaderWriterLock.startWrite, ReaderWriterLock.startWritePred]

/-- C5, as the code has it: at `readers == -2147483648` (`INT_MIN`) the
decrement `--readers` of `endRead` overflows: `readers` is not lowered by 1. -/
theorem endRead_overflows_at_int_min :
    (ReaderWriterLock.mk (-2147483648) false).endRead = Outcome.overflow ∧
      call .endRead (ReaderWriterLock.mk (-2147483648) false) = none := by
  decide

/-- C5, amended: in every lock state with `readers > -2147483648`, `endRead`
returns without waiting, lowers `readers` by exactly 1, leaves `writer`
unchanged, and calls `notify_all` exactly when the lowered `readers` is 0. -/
theorem endRead_contract (s : ReaderWriterLock) (hr : -2147483648 < s.readers) :
    ∃ (t : ReaderWriterLock) (b : Bool),
      s.endRead = .returns (t, b) ∧
      call .endRead s = some (t, b) ∧
      (∀ readCount i : Int,
        (reader readCount s ⟨i, true⟩).map (fun r => (r.lock, r.notified)) = some (t, b)) ∧
      t.readers = s.readers - 1 ∧
      t.writer = s.writer ∧
      (b = true ↔ t.readers = 0) ∧
      (b = true ↔ s.readers = 1) := by
  refine ⟨⟨s.readers - 1, s.writer⟩, s.readers - 1 == 0, ?_, ?_, ?_, rfl, rfl, ?_, ?_⟩
  · simp [ReaderWriterLock.endRead, hr]
  · simp [call, ReaderWriterLock.endRead, hr, Outcome.toOption]
  · intro readCount i
    simp [reader, ReaderWriterLock.endRead, hr]
  · simp
  · simp
    omega

/-- The last of the readers leaves: `readers` goes from 1 to 0 and `notify_all`
is called. -/
theorem endRead_contract_witness :
    (-2147483648 : Int) < 1 ∧
      ∃ (t : ReaderWriterLock) (b : Bool),
        (ReaderWriterLock.mk 1 false).endRead = .returns (t, b) ∧
        call .endRead (ReaderWriterLock.mk 1 false) = some (t, b) ∧
        (∀ readCount i : Int,
          (reader readCount (ReaderWriterLock.mk 1 false) ⟨i, true⟩).map
            (fun r => (r.lock, r.notified)) = some (t, b)) ∧
        t.readers = (ReaderWriterLock.mk 1 false).readers - 1 ∧
        t.writer = (ReaderWriterLock.mk 1 false).writer ∧
        (b = true ↔ t.readers = 0) ∧
        (b = true ↔ (ReaderWriterLock.mk 1 false).readers = 1) :=
  ⟨by decide, endRead_contract ⟨1, false⟩ (by decide)⟩

/-- C6: `endWrite` never waits, sets `writer` to false, leaves `readers`
unchanged, and calls `notify_all` in every state. -/
theorem endWrite_contract (s : ReaderWriterLock) :
    call .endWrite s = some s.endWrite ∧
    (∀ writeCount i : Int, (writer writeCount s ⟨i, true⟩).map (fun r => (r.lock, r.notified)) =
      some s.endWrite) ∧
    s.endWrite.1.writer = false ∧
    s.endWrite.1.readers = s.readers ∧
    s.endWrite.2 = true :=
  ⟨rfl, fun _ _ => rfl, rfl, rfl, rfl⟩

/-! ## `runTest`: the averages -/

/-- C7, as the code has it: `runTest(3, 0, 2, 3)` (3 readers x 2 operations, no
writer) reaches `totalWriteWaitTime / (numWriters * writeCount)` with a zero
divisor; no average is reported. -/
theorem runTest_no_writers_divides_by_zero :
    runTest 0 0 3 0 2 3 = .error .divisionByZero := rfl

/-- C7, amended: with both `int` products in range and the totals not negative,
`runTest` reports the truncated quotients when both products are non-zero, and
runs into the division by zero when one of them is zero. -/
theorem runTest_averages (totalRead totalWrite numReaders numWriters readCount writeCount : Int)
    (hr : -2147483648 ≤ numReaders * readCount ∧ numReaders * readCount ≤ 2147483647)
    (hw : -2147483648 ≤ numWriters * writeCount ∧ numWriters * writeCount ≤ 2147483647)
    (htr : 0 ≤ totalRead) (htw : 0 ≤ totalWrite) :
    runTest totalRead totalWrite numReaders numWriters readCount writeCount =
      if numReaders * readCount = 0 ∨ numWriters * writeCount = 0 then
        .error .divisionByZero
      else
        .ok (Int.tdiv totalRead (numReaders * readCount),
             Int.tdiv totalWrite (numWriters * writeCount)) := by
  have h1 : ¬ (totalRead = -9223372036854775808 ∧ numReaders * readCount = -1) := by omega
  have h2 : ¬ (totalWrite = -9223372036854775808 ∧ numWriters * writeCount = -1) := by omega
  by_cases hdr : numReaders * readCount = 0
  · simp [runTest, mulInt, divLongLong, hdr, bind, Except.bind]
  · by_cases hdw : numWriters * writeCount = 0
    · simp [runTest, mulInt, divLongLong, hr, hdr, hdw, h1, bind, Except.bind]
    · simp [runTest, mulInt, divLongLong, hr, hw, hdr, hdw, h1, h2, bind, Except.bind, pure,
        Except.pure]

/-- The first call in `main`, `runTest(5, 2)`, with 10 ms and 7 ms of accumulated
waiting: both averages are reported. -/
theorem runTest_averages_witness :
    runTest 10 7 5 2 3 3 = .ok (0, 1) := by
  have h := runTest_averages 10 7 5 2 3 3 (by decide) (by decide) (by decide) (by decide)
  simpa using h

/-! ## Arbitrary call sequences on one lock -/

/-- What one call that returns does to `readers`: `startRead` adds 1,
`endRead` takes 1 away, and the value stays an `int`. -/
theorem call_readers (op : LockOp) (s t : ReaderWriterLock) (b : Bool)
    (h : call op s = some (t, b)) :
    t.readers = s.readers + (if op = LockOp.startRead then 1 else 0)
        - (if op = LockOp.endRead then 1 else 0) ∧
      (-2147483648 ≤ s.readers ∧ s.readers ≤ 2147483647 →
        -2147483648 ≤ t.readers ∧ t.readers ≤ 2147483647) := by
  cases op with
  | startRead =>
    cases hs : s.startRead with
    | returns u =>
      obtain ⟨_, hr, rfl⟩ := startRead_some s u hs
      simp [call, hs, Outcome.toOption] at h
      obtain ⟨rfl, -⟩ := h
      simp
      omega
    | waits => simp [call, hs, Outcome.toOption] at h
    | overflow => simp [call, hs, Outcome.toOption] at h
  | endRead =>
    cases hs : s.endRead with
    | returns u =>
      obtain ⟨hr, rfl⟩ := endRead_some s u hs
      simp [call, hs, Outcome.toOption] at h
      obtain ⟨rfl, -⟩ := h
      simp
      omega
    | waits => simp [call, hs, Outcome.toOption] at h
    | overflow => simp [call, hs, Outcome.toOption] at h
  | startWrite =>
    cases hs : s.startWrite with
    | none => simp [call, hs] at h
    | some u =>
      obtain ⟨_, _, rfl⟩ := startWrite_some s u hs
      simp [call, hs] at h
      obtain ⟨rfl, -⟩ := h
      simp
  | endWrite =>
    simp [call, ReaderWriterLock.endWrite] at h
    obtain ⟨rfl, -⟩ := h
    simp

/-- Along a sequence of calls all of which return, `readers` moves by the
number of `startRead` calls minus the number of `endRead` calls and stays an
`int`. -/
theorem callAll_readers (ops : List LockOp) :
    ∀ s t : ReaderWriterLock, callAll ops s = some t →
      t.readers = s.readers + ops.count LockOp.startRead - ops.count LockOp.endRead ∧
      (-2147483648 ≤ s.readers ∧ s.readers ≤ 2147483647 →
        -2147483648 ≤ t.readers ∧ t.readers ≤ 2147483647) := by
  induction ops with
  | nil =>
    intro s t h
    simp [callAll] at h
    simp [h]
  | cons op ops ih =>
    intro s t h
    cases hc : call op s with
    | none => simp [callAll, hc] at h
    | some r =>
      obtain ⟨u, b⟩ := r
      simp [callAll, hc] at h
      have h1 := call_readers op s u b hc
      have h2 := ih u t h
      refine ⟨?_, fun hs => h2.2 (h1.2 hs)⟩
      have h3 := h1.1
      have h4 := h2.1
      cases op <;> simp [List.count_cons] at h3 h4 ⊢ <;> omega

/-- As many `startRead` calls in a row as fit into the `int`: one more and the
sequence has no value. -/
theorem callAll_startReads (n : Nat) :
    ∀ r : Int, r ≤ 2147483647 →
      callAll (List.replicate n LockOp.startRead) ⟨r, false⟩ =
        if r + n ≤ 2147483647 then some ⟨r + n, false⟩ else none := by
  induction n with
  | zero =>
    intro r hr
    simp [callAll, hr]
  | succ k ih =>
    intro r hr
    by_cases hlt : r < 2147483647
    · have h1 : call LockOp.startRead ⟨r, false⟩ = some (⟨r + 1, false⟩, false) := by
        simp [call, ReaderWriterLock.startRead, ReaderWriterLock.startReadPred, hlt,
          Outcome.toOption]
      have h2 := ih (r + 1) (by omega)
      simp only [List.replicate_succ, callAll, h1, h2]
      push_cast
      by_cases hle : r + 1 + (k : Int) ≤ 2147483647
      · have : r + ((k : Int) + 1) ≤ 2147483647 := by omega
        simp [hle, this]
        omega
      · have : ¬ r + ((k : Int) + 1) ≤ 2147483647 := by omega
        simp [hle, this]
    · have h1 : call LockOp.startRead ⟨r, false⟩ = none := by
        simp [call, ReaderWriterLock.startRead, ReaderWriterLock.startReadPred, hlt,
          Outcome.toOption]
      have : ¬ r + ((k + 1 : Nat) : Int) ≤ 2147483647 := by
        push_cast
        omega
      simp only [List.replicate_succ, callAll, h1, if_neg this]

/-- The sequence of `2^31` calls of `startRead` on a fresh lock overflows
`readers`: it reaches no state. -/
theorem startRead_two_pow_31_overflows :
    callAll (List.replicate 2147483648 LockOp.startRead) ReaderWriterLock.init = none := by
  have h := callAll_startReads 2147483648 0 (by decide)
  rw [if_neg (by decide)] at h
  exact h

/-- The class accepts `2147483647` calls of `startRead` in a row on a fresh
lock: they lead to `readers == 2147483647`, where the next one overflows. -/
theorem startRead_reaches_int_max :
    callAll (List.replicate 2147483647 LockOp.startRead) ReaderWriterLock.init =
      some ⟨2147483647, false⟩ := by
  have h := callAll_startReads 2147483647 0 (by decide)
  rw [if_pos (by decide)] at h
  exact h

/-- As many `endRead` calls in a row as fit into the `int`: one more and the
sequence has no value. -/
theorem callAll_endReads (n : Nat) :
    ∀ (r : Int) (w : Bool), -2147483648 ≤ r →
      callAll (List.replicate n LockOp.endRead) ⟨r, w⟩ =
        if -2147483648 ≤ r - n then some ⟨r - n, w⟩ else none := by
  induction n with
  | zero =>
    intro r w hr
    simp [callAll, hr]
  | succ k ih =>
    intro r w hr
    by_cases hlt : -2147483648 < r
    · have h1 : call LockOp.endRead ⟨r, w⟩ = some (⟨r - 1, w⟩, r - 1 == 0) := by
        simp [call, ReaderWriterLock.endRead, hlt, Outcome.toOption]
      have h2 := ih (r - 1) w (by omega)
      simp only [List.replicate_succ, callAll, h1, h2]
      push_cast
      by_cases hle : -2147483648 ≤ r - 1 - (k : Int)
      · have : -2147483648 ≤ r - ((k : Int) + 1) := by omega
        simp [hle, this]
        omega
      · have : ¬ -2147483648 ≤ r - ((k : Int) + 1) := by omega
        simp [hle, this]
    · have h1 : call LockOp.endRead ⟨r, w⟩ = none := by
        simp [call, ReaderWriterLock.endRead, hlt, Outcome.toOption]
      have : ¬ -2147483648 ≤ r - ((k + 1 : Nat) : Int) := by
        push_cast
        omega
      simp only [List.replicate_succ, callAll, h1, if_neg this]

/-- The class accepts `2147483648` calls of `endRead` in a row on a fresh lock:
they lead to `readers == -2147483648`, where the next one overflows. -/
theorem endRead_reaches_int_min :
    callAll (List.replicate 2147483648 LockOp.endRead) ReaderWriterLock.init =
      some ⟨-2147483648, false⟩ := by
  have h := callAll_endReads 2147483648 0 false (by decide)
  rw [if_pos (by decide)] at h
  exact h

/-- C9, as the code has it: one `endRead` on a fresh lock, which the class
accepts, leaves `readers == -1`. -/
theorem endRead_first_goes_negative :
    (callAll [LockOp.endRead] ReaderWriterLock.init).map (fun s => (s.readers, decide (0 ≤ s.readers)))
      = some (-1, false) := by
  decide

/-- C9, amended: after a sequence of calls from the initial state, each of
which returned (none waits, none overflows the `int` counter), in which
`endRead` was called at most as often as `startRead`, `readers >= 0`, and
`readers` is the `int` it is in the code, at most `2147483647`. -/
theorem readers_nonneg_of_matched (ops : List LockOp) (s : ReaderWriterLock)
    (h : callAll ops ReaderWriterLock.init = some s)
    (hm : ops.count LockOp.endRead ≤ ops.count LockOp.startRead) :
    0 ≤ s.readers ∧ s.readers ≤ 2147483647 ∧
      s.readers = ops.count LockOp.startRead - ops.count LockOp.endRead := by
  have h1 := callAll_readers ops _ _ h
  have h2 := h1.2 (by simp [ReaderWriterLock.init])
  have h3 := h1.1
  simp [ReaderWriterLock.init] at h3
  omega

/-- Two readers overlap, then one leaves: `readers` is 1. -/
theorem readers_nonneg_of_matched_witness :
    callAll [.startRead, .startRead, .endRead] ReaderWriterLock.init = some ⟨1, false⟩ ∧
      [LockOp.startRead, .startRead, .endRead].count LockOp.endRead ≤
        [LockOp.startRead, .startRead, .endRead].count LockOp.startRead ∧
      0 ≤ (ReaderWriterLock.mk 1 false).readers :=
  ⟨by decide, by decide,
   (readers_nonneg_of_matched [.startRead, .startRead, .endRead] ⟨1, false⟩
     (by decide) (by decide)).1⟩

/-! ## Threads on the lock: what one step does -/

/-- Replacing one thread changes a tally by the difference of its two values. -/
theorem tally_set (f : Worker → Int) (ws : List Worker) :
    ∀ (n : Nat) (w v : Worker), ws[n]? = some w →
      tally f (ws.set n v) = tally f ws - f w + f v := by
  induction ws with
  | nil => intro n w v h; simp at h
  | cons a as ih =>
    intro n w v h
    cases n with
    | zero =>
      simp at h
      subst h
      simp [tally]
      omega
    | succ k =>
      simp at h
      have := ih k w v h
      simp [tally] at this ⊢
      omega

/-- A tally of non-negative values is at least the value of each thread. -/
theorem tally_ge (f : Worker → Int) (hf : ∀ w, 0 ≤ f w) (ws : List Worker) :
    0 ≤ tally f ws ∧ ∀ (n : Nat) (w : Worker), ws[n]? = some w → f w ≤ tally f ws := by
  induction ws with
  | nil => simp [tally]
  | cons a as ih =>
    refine ⟨?_, ?_⟩
    · have := hf a
      have := ih.1
      simp [tally] at this ⊢
      omega
    · intro n w h
      cases n with
      | zero =>
        simp at h
        subst h
        have := ih.1
        simp [tally] at this ⊢
        omega
      | succ k =>
        simp at h
        have h1 := ih.2 k w h
        have h2 := hf a
        simp [tally] at h1 ⊢
        omega

/-- The four ways in which a thread makes a lock call. -/
theorem next_cases (l : ReaderWriterLock) (w : Worker) (f : Fired) (h : w.next l = some f) :
    (w.role = .reader ∧ w.frame.holding = false ∧ w.frame.i < w.count ∧ l.writer = false ∧
      f = ⟨⟨l.readers + 1, l.writer⟩, ⟨w.frame.i, true⟩, .startRead, false⟩) ∨
    (w.role = .reader ∧ w.frame.holding = true ∧
      f = ⟨⟨l.readers - 1, l.writer⟩, ⟨w.frame.i + 1, false⟩, .endRead,
        l.readers - 1 == 0⟩) ∨
    (w.role = .writer ∧ w.frame.holding = false ∧ w.frame.i < w.count ∧ l.writer = false ∧
      l.readers = 0 ∧ f = ⟨⟨l.readers, true⟩, ⟨w.frame.i, true⟩, .startWrite, false⟩) ∨
    (w.role = .writer ∧ w.frame.holding = true ∧
      f = ⟨⟨l.readers, false⟩, ⟨w.frame.i + 1, false⟩, .endWrite, true⟩) := by
  obtain ⟨role, count, ⟨i, holding⟩⟩ := w
  cases role <;> cases holding
  · -- reader, outside
    by_cases hlt : i < count
    · cases hs : l.startRead with
      | waits => simp [Worker.next, reader, hlt, hs] at h
      | overflow => simp [Worker.next, reader, hlt, hs] at h
      | returns u =>
        obtain ⟨hw, -, rfl⟩ := startRead_some l u hs
        simp [Worker.next, reader, hlt, hs] at h
        simp [hlt, hw, ← h]
    · simp [Worker.next, reader, hlt] at h
  · cases hs : l.endRead with
    | waits => simp [Worker.next, reader, hs] at h
    | overflow => simp [Worker.next, reader, hs] at h
    | returns u =>
      obtain ⟨-, rfl⟩ := endRead_some l u hs
      simp [Worker.next, reader, hs] at h
      simp [← h]
  · by_cases hlt : i < count
    · cases hs : l.startWrite with
      | none => simp [Worker.next, writer, hlt, hs] at h
      | some u =>
        obtain ⟨hw, hr, rfl⟩ := startWrite_some l u hs
        simp [Worker.next, writer, hlt, hs] at h
        simp [hlt, hw, hr, ← h]
    · simp [Worker.next, writer, hlt] at h
  · simp [Worker.next, writer, ReaderWriterLock.endWrite] at h
    simp [← h]

/-- A step of the machine is a lock call of one of its threads. -/
theorem stepAt_some (n : Nat) (m m1 : Machine) (op : LockOp) (b : Bool)
    (h : stepAt n m = some (m1, op, b)) :
    ∃ w f, m.threads[n]? = some w ∧ w.next m.lock = some f ∧
      m1 = { lock := f.lock, threads := m.threads.set n { w with frame := f.frame } } ∧
      op = f.op ∧ b = f.notified := by
  unfold stepAt at h
  cases hw : m.threads[n]? with
  | none => simp [hw] at h
  | some w =>
    cases hf : w.next m.lock with
    | none => simp [hw, hf] at h
    | some f =>
      simp [hw, hf] at h
      exact ⟨w, f, rfl, hf, h.1.symm, h.2.1.symm, h.2.2.symm⟩

/-! ## The invariant of the threads on the lock -/

theorem reading_nonneg (w : Worker) : 0 ≤ w.reading := by
  unfold Worker.reading
  split <;> decide

theorem writing_nonneg (w : Worker) : 0 ≤ w.writing := by
  unfold Worker.writing
  split <;> decide

/-- A tally of zeros is zero. -/
theorem tally_eq_zero (f : Worker → Int) (ws : List Worker) (h : ∀ w ∈ ws, f w = 0) :
    tally f ws = 0 := by
  induction ws with
  | nil => simp [tally]
  | cons a as ih =>
    have h1 := h a (by simp)
    have h2 := ih (fun w hw => h w (by simp [hw]))
    simp [tally] at h2 ⊢
    omega

/-- A fresh lock with freshly started threads is consistent. -/
theorem consistent_start (ws : List (Role × Int)) : (start ws).Consistent := by
  have hr : tally Worker.reading (ws.map fun p => Worker.spawn p.1 p.2) = 0 := by
    apply tally_eq_zero
    intro w hmem
    simp at hmem
    obtain ⟨a, b, _, rfl⟩ := hmem
    simp [Worker.reading, Worker.spawn]
  have hw : tally Worker.writing (ws.map fun p => Worker.spawn p.1 p.2) = 0 := by
    apply tally_eq_zero
    intro w hmem
    simp at hmem
    obtain ⟨a, b, _, rfl⟩ := hmem
    simp [Worker.writing, Worker.spawn]
  refine ⟨?_, ?_, ?_, ?_⟩
  · simp [start, ReaderWriterLock.init, hr]
  · simp [start, ReaderWriterLock.init, hw]
  · simp [start, ReaderWriterLock.init]
  · intro w hmem
    simp [start] at hmem
    obtain ⟨a, b, _, rfl⟩ := hmem
    simp [Worker.spawn]

/-- Every lock call of a thread keeps the machine consistent. -/
theorem consistent_step (n : Nat) (m m1 : Machine) (op : LockOp) (b : Bool)
    (h : stepAt n m = some (m1, op, b)) (hc : m.Consistent) : m1.Consistent := by
  obtain ⟨w, f, hw, hf, rfl, -, -⟩ := stepAt_some n m m1 op b h
  obtain ⟨hR, hW, hX, hwf⟩ := hc
  have hwfw := hwf w (List.getElem?_mem hw)
  have hsetR := fun v => tally_set Worker.reading m.threads n w v hw
  have hsetW := fun v => tally_set Worker.writing m.threads n w v hw
  have hgeR := (tally_ge Worker.reading reading_nonneg m.threads).2 n w hw
  have hgeW := (tally_ge Worker.writing writing_nonneg m.threads).2 n w hw
  have hmem : ∀ v : Worker, (0 ≤ v.frame.i ∧ (v.frame.holding = true → v.frame.i < v.count) ∧
        (v.frame.i ≤ v.count ∨ v.frame.i = 0)) →
      ∀ u ∈ m.threads.set n v, 0 ≤ u.frame.i ∧ (u.frame.holding = true → u.frame.i < u.count) ∧
        (u.frame.i ≤ u.count ∨ u.frame.i = 0) := by
    intro v hv u hu
    rcases List.mem_or_eq_of_mem_set hu with h1 | h1
    · exact hwf u h1
    · subst h1
      exact hv
  obtain ⟨role, count, ⟨i, holding⟩⟩ := w
  rcases next_cases _ _ _ hf with ⟨h1, h2, h3, h4, rfl⟩ | ⟨h1, h2, rfl⟩ |
    ⟨h1, h2, h3, h4, h5, rfl⟩ | ⟨h1, h2, rfl⟩
  all_goals simp only at h1 h2
  all_goals subst h1 h2
  · refine ⟨?_, ?_, ?_, hmem _ ?_⟩
    · simp only [hsetR, hR]
      simp [Worker.reading]
    · simp only [hsetW, hW]
      simp [Worker.writing]
    · simp [h4]
    · simp at h3 hwfw ⊢
      omega
  · have hw0 : m.lock.writer = false := by
      cases hwr : m.lock.writer with
      | false => rfl
      | true =>
        have := hX hwr
        simp [Worker.reading] at hgeR
        omega
    refine ⟨?_, ?_, ?_, hmem _ ?_⟩
    · simp only [hsetR, hR]
      simp [Worker.reading]
    · simp only [hsetW, hW]
      simp [Worker.writing]
    · simp [hw0]
    · simp at hwfw ⊢
      omega
  · refine ⟨?_, ?_, ?_, hmem _ ?_⟩
    · simp only [hsetR, hR]
      simp [Worker.reading]
    · simp only [hsetW, hW]
      simp [Worker.writing, h4]
    · simp [h5]
    · simp at h3 hwfw ⊢
      omega
  · have hw1 : m.lock.writer = true := by
      cases hwr : m.lock.writer with
      | true => rfl
      | false =>
        simp [Worker.writing, hwr] at hgeW hW
        omega
    refine ⟨?_, ?_, ?_, hmem _ ?_⟩
    · simp only [hsetR, hR]
      simp [Worker.reading]
    · simp only [hsetW, hW]
      simp [Worker.writing, hw1]
    · simp
    · simp at hwfw ⊢
      omega

/-- Every state the threads reach from a consistent one is consistent. -/
theorem consistent_exec (ns : List Nat) :
    ∀ m m1 : Machine, exec ns m = some m1 → m.Consistent → m1.Consistent := by
  induction ns with
  | nil =>
    intro m m1 h hc
    simp [exec] at h
    exact h ▸ hc
  | cons n ns ih =>
    intro m m1 h hc
    cases hs : stepAt n m with
    | none => simp [exec, hs] at h
    | some r =>
      obtain ⟨m2, op, b⟩ := r
      simp [exec, hs] at h
      exact ih m2 m1 h (consistent_step n m m2 op b hs hc)

/-- Under the use made by `reader` and `writer`, `readers` is the number of
threads inside a read: it lies between 0 and the number of threads. -/
theorem readers_eq_holding (ws : List (Role × Int)) (ns : List Nat) (m : Machine)
    (h : exec ns (start ws) = some m) :
    m.lock.readers = tally Worker.reading m.threads ∧ 0 ≤ m.lock.readers ∧
      m.lock.readers ≤ m.threads.length := by
  have hc := consistent_exec ns _ _ h (consistent_start ws)
  refine ⟨hc.1, ?_, ?_⟩
  · rw [hc.1]
    exact (tally_ge Worker.reading reading_nonneg m.threads).1
  · rw [hc.1]
    generalize m.threads = l
    induction l with
    | nil => simp [tally]
    | cons a as ih =>
      have : a.reading ≤ 1 := by
        unfold Worker.reading
        split <;> decide
      simp [tally] at ih ⊢
      omega

/-- An interleaving neither starts nor ends threads. -/
theorem exec_length (ns : List Nat) :
    ∀ m m1 : Machine, exec ns m = some m1 → m1.threads.length = m.threads.length := by
  induction ns with
  | nil =>
    intro m m1 h
    simp [exec] at h
    simp [h]
  | cons n ns ih =>
    intro m m1 h
    cases hs : stepAt n m with
    | none => simp [exec, hs] at h
    | some r =>
      obtain ⟨m2, op, b⟩ := r
      simp [exec, hs] at h
      obtain ⟨w, f, -, -, rfl, -, -⟩ := stepAt_some n m m2 op b hs
      have := ih _ m1 h
      simpa using this

/-- With fewer than `2147483647` threads the `int` counter never overflows: in
every state the threads reach, neither `readers++` in `startRead` nor
`--readers` in `endRead` leaves the range of `int`. -/
theorem reachable_no_overflow (ws : List (Role × Int)) (ns : List Nat) (m : Machine)
    (h : exec ns (start ws) = some m) (hn : ws.length < 2147483647) :
    m.lock.startRead ≠ Outcome.overflow ∧ m.lock.endRead ≠ Outcome.overflow := by
  have hr := readers_eq_holding ws ns m h
  have hl := exec_length ns _ _ h
  simp [start] at hl
  have h1 : m.lock.readers < 2147483647 := by omega
  have h2 : -2147483648 < m.lock.readers := by omega
  constructor
  · unfold ReaderWriterLock.startRead
    split <;> simp [h1]
  · simp [ReaderWriterLock.endRead, h2]

/-! ## Mutual exclusion and the single writer -/

/-- C1: in every state that threads running `reader` and `writer` reach from
the initial lock, `writer == true` implies `readers == 0`, and `readers > 0`
implies `writer == false`. -/
theorem mutual_exclusion (ws : List (Role × Int)) (ns : List Nat) (m : Machine)
    (h : exec ns (start ws) = some m) :
    (m.lock.writer = true → m.lock.readers = 0) ∧
    (0 < m.lock.readers → m.lock.writer = false) := by
  have hc := consistent_exec ns _ _ h (consistent_start ws)
  refine ⟨hc.2.2.1, ?_⟩
  intro hpos
  cases hw : m.lock.writer with
  | false => rfl
  | true =>
    have := hc.2.2.1 hw
    omega

/-- One reader and one writer; the writer gets in first: `writer == true` and
`readers == 0`. -/
theorem mutual_exclusion_witness :
    exec [1] (start [(Role.reader, 1), (Role.writer, 1)]) =
        some ⟨⟨0, true⟩, [⟨.reader, 1, ⟨0, false⟩⟩, ⟨.writer, 1, ⟨0, true⟩⟩]⟩ ∧
      ((true = true → (0 : Int) = 0) ∧ (0 < (0 : Int) → true = false)) :=
  ⟨by decide,
   mutual_exclusion [(Role.reader, 1), (Role.writer, 1)] [1]
     ⟨⟨0, true⟩, [⟨.reader, 1, ⟨0, false⟩⟩, ⟨.writer, 1, ⟨0, true⟩⟩]⟩ (by decide)⟩

/-- C2: in every reachable state at most one thread is between its `startWrite`
and its `endWrite`; a `startWrite` that goes on finds no thread there, so while
some thread is there no `startWrite` of any thread goes on. -/
theorem single_writer (ws : List (Role × Int)) (ns : List Nat) (m : Machine)
    (h : exec ns (start ws) = some m) :
    tally Worker.writing m.threads ≤ 1 ∧
    (∀ n m1 b, stepAt n m = some (m1, LockOp.startWrite, b) →
      tally Worker.writing m.threads = 0 ∧ tally Worker.writing m1.threads = 1) ∧
    (∀ (k : Nat) (v : Worker), m.threads[k]? = some v → v.role = Role.writer → v.frame.holding = true →
      ∀ n m1 b, stepAt n m ≠ some (m1, LockOp.startWrite, b)) := by
  have hc := consistent_exec ns _ _ h (consistent_start ws)
  have key : ∀ n m1 b, stepAt n m = some (m1, LockOp.startWrite, b) →
      tally Worker.writing m.threads = 0 ∧ tally Worker.writing m1.threads = 1 := by
    intro n m1 b hs
    have hc1 := consistent_step n m m1 _ b hs hc
    obtain ⟨w, f, hw, hf, rfl, hop, -⟩ := stepAt_some n m m1 _ b hs
    rcases next_cases _ _ _ hf with ⟨-, -, -, -, rfl⟩ | ⟨-, -, rfl⟩ |
      ⟨-, -, -, h4, -, rfl⟩ | ⟨-, -, rfl⟩
    · simp at hop
    · simp at hop
    · have h1 := hc.2.1
      have h2 := hc1.2.1
      simp [h4] at h1 h2
      exact ⟨h1, h2⟩
    · simp at hop
  refine ⟨?_, key, ?_⟩
  · rw [hc.2.1]
    split <;> decide
  · intro k v hv hrole hhold n m1 b hs
    have h0 := (key n m1 b hs).1
    have hge := (tally_ge Worker.writing writing_nonneg m.threads).2 k v hv
    simp [Worker.writing, hrole, hhold] at hge
    omega

/-- Two writers; the first is inside its write: one thread is writing and the
`startWrite` of the second does not go on. -/
theorem single_writer_witness :
    exec [0] (start [(Role.writer, 2), (Role.writer, 2)]) =
        some ⟨⟨0, true⟩, [⟨.writer, 2, ⟨0, true⟩⟩, ⟨.writer, 2, ⟨0, false⟩⟩]⟩ ∧
      tally Worker.writing [⟨.writer, 2, ⟨0, true⟩⟩, ⟨.writer, 2, ⟨0, false⟩⟩] ≤ 1 ∧
      stepAt 1 ⟨⟨0, true⟩, [⟨.writer, 2, ⟨0, true⟩⟩, ⟨.writer, 2, ⟨0, false⟩⟩]⟩ = none :=
  ⟨by decide,
   (single_writer [(Role.writer, 2), (Role.writer, 2)] [0]
     ⟨⟨0, true⟩, [⟨.writer, 2, ⟨0, true⟩⟩, ⟨.writer, 2, ⟨0, false⟩⟩]⟩ (by decide)).1,
   by decide⟩

/-! ## No lost wake-up -/

/-- C10: in every reachable state, a lock call of a thread that turns the wait
predicate of `startRead` or of `startWrite` from false to true has called
`notify_all`. -/
theorem no_lost_wakeup (ws : List (Role × Int)) (ns : List Nat) (m : Machine)
    (h : exec ns (start ws) = some m) (n : Nat) (m1 : Machine) (op : LockOp) (b : Bool)
    (hs : stepAt n m = some (m1, op, b))
    (hp : (m.lock.startReadPred = false ∧ m1.lock.startReadPred = true) ∨
      (m.lock.startWritePred = false ∧ m1.lock.startWritePred = true)) :
    b = true := by
  have hc := consistent_exec ns _ _ h (consistent_start ws)
  have hpos : 0 ≤ m.lock.readers := by
    rw [hc.1]
    exact (tally_ge Worker.reading reading_nonneg m.threads).1
  obtain ⟨w, f, hw, hf, rfl, -, rfl⟩ := stepAt_some n m m1 _ b hs
  rcases next_cases _ _ _ hf with ⟨-, -, -, h4, rfl⟩ | ⟨-, -, rfl⟩ |
    ⟨-, -, -, h4, h5, rfl⟩ | ⟨-, -, rfl⟩
  · simp [ReaderWriterLock.startReadPred, ReaderWriterLock.startWritePred, h4] at hp
    omega
  · simp [ReaderWriterLock.startReadPred, ReaderWriterLock.startWritePred] at hp ⊢
    omega
  · simp [ReaderWriterLock.startReadPred, ReaderWriterLock.startWritePred, h4] at hp
  · rfl

/-- The last reader leaves while a writer waits: the predicate of `startWrite`
turns true and `endRead` has called `notify_all`. -/
theorem no_lost_wakeup_witness :
    exec [0] (start [(Role.reader, 1), (Role.writer, 1)]) =
        some ⟨⟨1, false⟩, [⟨.reader, 1, ⟨0, true⟩⟩, ⟨.writer, 1, ⟨0, false⟩⟩]⟩ ∧
      stepAt 0 ⟨⟨1, false⟩, [⟨.reader, 1, ⟨0, true⟩⟩, ⟨.writer, 1, ⟨0, false⟩⟩]⟩ =
        some (⟨⟨0, false⟩, [⟨.reader, 1, ⟨1, false⟩⟩, ⟨.writer, 1, ⟨0, false⟩⟩]⟩,
          LockOp.endRead, true) ∧
      (ReaderWriterLock.mk 1 false).startWritePred = false ∧
      (ReaderWriterLock.mk 0 false).startWritePred = true ∧
      true = true :=
  ⟨by decide, by decide, by decide, by decide,
   no_lost_wakeup [(Role.reader, 1), (Role.writer, 1)] [0]
     ⟨⟨1, false⟩, [⟨.reader, 1, ⟨0, true⟩⟩, ⟨.writer, 1, ⟨0, false⟩⟩]⟩ (by decide) 0
     ⟨⟨0, false⟩, [⟨.reader, 1, ⟨1, false⟩⟩, ⟨.writer, 1, ⟨0, false⟩⟩]⟩ LockOp.endRead true
     (by decide) (Or.inr ⟨by decide, by decide⟩)⟩

/-- Outside the states the threads reach the property fails: after a stray
`endRead` (`readers == -1`) a `startRead` turns the predicate of `startWrite`
true and calls no `notify_all`. -/
theorem stray_endRead_loses_wakeup :
    call .startRead ⟨-1, false⟩ = some (⟨0, false⟩, false) ∧
      (ReaderWriterLock.mk (-1) false).startWritePred = false ∧
      (ReaderWriterLock.mk 0 false).startWritePred = true := by
  decide

/-! ## Deadlock freedom and completion -/

/-- A thread inside an access can make its `end...` call when `readers` is not
negative. -/
theorem next_of_holding (l : ReaderWriterLock) (w : Worker) (hl : 0 ≤ l.readers)
    (h : w.frame.holding = true) : (w.next l).isSome = true := by
  obtain ⟨role, count, ⟨i, holding⟩⟩ := w
  simp at h
  subst h
  have hr : -2147483648 < l.readers := by omega
  cases role <;> simp [Worker.next, reader, writer, ReaderWriterLock.endRead, hr]

/-- On an idle lock every thread whose loop goes on can make its `start...`
call. -/
theorem next_of_idle (l : ReaderWriterLock) (w : Worker) (hr : l.readers = 0)
    (hw : l.writer = false) (h : w.finished = false) : (w.next l).isSome = true := by
  obtain ⟨role, count, ⟨i, holding⟩⟩ := w
  obtain ⟨r, wr⟩ := l
  simp at hr hw
  subst hr hw
  cases holding
  · have hlt : i < count := by simpa [Worker.finished] using h
    cases role <;>
      simp [Worker.next, reader, writer, hlt, ReaderWriterLock.startRead,
        ReaderWriterLock.startReadPred, ReaderWriterLock.startWrite,
        ReaderWriterLock.startWritePred]
  · cases role <;> simp [Worker.next, reader, writer, ReaderWriterLock.endRead]

/-- A thread that can make its next call gives a step of the machine. -/
theorem stepAt_of_next (n : Nat) (m : Machine) (w : Worker) (hw : m.threads[n]? = some w)
    (h : (w.next m.lock).isSome = true) : (stepAt n m).isSome = true := by
  cases hf : w.next m.lock with
  | none => simp [hf] at h
  | some f => simp [stepAt, hw, hf]

/-- In a consistent state either every thread has ended or some thread can
make its next lock call. -/
theorem consistent_progress (m : Machine) (hc : m.Consistent) :
    m.allDone = true ∨ ∃ n, (stepAt n m).isSome = true := by
  by_cases hd : m.allDone = true
  · exact Or.inl hd
  · right
    simp [Machine.allDone] at hd
    obtain ⟨w, hmem, hw⟩ := hd
    by_cases hh : ∃ v ∈ m.threads, v.frame.holding = true
    · obtain ⟨v, hv, hvh⟩ := hh
      obtain ⟨n, hn⟩ := List.mem_iff_getElem?.mp hv
      have hpos : 0 ≤ m.lock.readers := by
        rw [hc.1]
        exact (tally_ge Worker.reading reading_nonneg m.threads).1
      exact ⟨n, stepAt_of_next n m v hn (next_of_holding _ v hpos hvh)⟩
    · have hno : ∀ v ∈ m.threads, v.frame.holding = false := by
        intro v hv
        cases hvh : v.frame.holding with
        | false => rfl
        | true => exact absurd ⟨v, hv, hvh⟩ hh
      have hR : tally Worker.reading m.threads = 0 :=
        tally_eq_zero _ _ (fun v hv => by simp [Worker.reading, hno v hv])
      have hW : tally Worker.writing m.threads = 0 :=
        tally_eq_zero _ _ (fun v hv => by simp [Worker.writing, hno v hv])
      have hr : m.lock.readers = 0 := by rw [hc.1, hR]
      have hwr : m.lock.writer = false := by
        have := hc.2.1
        rw [hW] at this
        cases hx : m.lock.writer with
        | false => rfl
        | true => simp [hx] at this
      obtain ⟨n, hn⟩ := List.mem_iff_getElem?.mp hmem
      exact ⟨n, stepAt_of_next n m w hn (next_of_idle _ w hr hwr (by simpa using hw))⟩

/-- Every lock call lowers the number of calls left by exactly 1 and leaves the
quotas of the threads as they are. -/
theorem step_accounting (n : Nat) (m m1 : Machine) (op : LockOp) (b : Bool)
    (h : stepAt n m = some (m1, op, b)) (hc : m.Consistent) :
    tally Worker.remaining m1.threads + 1 = tally Worker.remaining m.threads ∧
    tally Worker.readQuota m1.threads = tally Worker.readQuota m.threads ∧
    tally Worker.writeQuota m1.threads = tally Worker.writeQuota m.threads := by
  obtain ⟨w, f, hw, hf, rfl, -, -⟩ := stepAt_some n m m1 op b h
  have hwfw := hc.2.2.2 w (List.getElem?_mem hw)
  have h1 := fun v => tally_set Worker.remaining m.threads n w v hw
  have h2 := fun v => tally_set Worker.readQuota m.threads n w v hw
  have h3 := fun v => tally_set Worker.writeQuota m.threads n w v hw
  obtain ⟨role, count, ⟨i, holding⟩⟩ := w
  simp only [h1, h2, h3]
  rcases next_cases _ _ _ hf with ⟨-, g2, g3, -, rfl⟩ | ⟨-, g2, rfl⟩ |
    ⟨-, g2, g3, -, -, rfl⟩ | ⟨-, g2, rfl⟩
  all_goals simp only at g2
  all_goals subst g2
  · simp at g3
    simp [Worker.remaining, Worker.readQuota, Worker.writeQuota, g3]
  · simp at hwfw
    simp [Worker.remaining, Worker.readQuota, Worker.writeQuota]
    split <;> omega
  · simp at g3
    simp [Worker.remaining, Worker.readQuota, Worker.writeQuota, g3]
  · simp at hwfw
    simp [Worker.remaining, Worker.readQuota, Worker.writeQuota]
    split <;> omega

/-- Along an interleaving the calls made and the calls left add up. -/
theorem exec_accounting (ns : List Nat) :
    ∀ m m1 : Machine, exec ns m = some m1 → m.Consistent →
      tally Worker.remaining m1.threads + ns.length = tally Worker.remaining m.threads ∧
      tally Worker.readQuota m1.threads = tally Worker.readQuota m.threads ∧
      tally Worker.writeQuota m1.threads = tally Worker.writeQuota m.threads := by
  induction ns with
  | nil =>
    intro m m1 h _
    simp [exec] at h
    subst h
    simp
  | cons n ns ih =>
    intro m m1 h hc
    cases hs : stepAt n m with
    | none => simp [exec, hs] at h
    | some r =>
      obtain ⟨m2, op, b⟩ := r
      simp [exec, hs] at h
      have ha := step_accounting n m m2 op b hs hc
      have hb := ih m2 m1 h (consistent_step n m m2 op b hs hc)
      refine ⟨?_, hb.2.1.trans ha.2.1, hb.2.2.trans ha.2.2⟩
      simp
      omega

/-- Tallies of quantities that agree on every thread agree. -/
theorem tally_congr (f g : Worker → Int) (ws : List Worker) (h : ∀ w ∈ ws, f w = g w) :
    tally f ws = tally g ws := by
  induction ws with
  | nil => simp [tally]
  | cons a as ih =>
    have h1 := h a (by simp)
    have h2 := ih (fun w hw => h w (by simp [hw]))
    simp [tally] at h2 ⊢
    omega

/-- A tally of non-negative values is non-negative. -/
theorem tally_nonneg (f : Worker → Int) (ws : List Worker) (h : ∀ w ∈ ws, 0 ≤ f w) :
    0 ≤ tally f ws := by
  induction ws with
  | nil => simp [tally]
  | cons a as ih =>
    have h1 := h a (by simp)
    have h2 := ih (fun w hw => h w (by simp [hw]))
    simp [tally] at h2 ⊢
    omega

theorem tally_append (f : Worker → Int) (xs ys : List Worker) :
    tally f (xs ++ ys) = tally f xs + tally f ys := by
  simp [tally]

theorem tally_replicate (f : Worker → Int) (n : Nat) (w : Worker) :
    tally f (List.replicate n w) = n * f w := by
  induction n with
  | zero => simp [tally]
  | succ k _ =>
    simp [tally, List.replicate_succ]
    ring

/-- The tallies of the threads `runTest` starts. -/
theorem tally_spawned (f : Worker → Int) (numReaders numWriters readCount writeCount : Int) :
    tally f (start (spawned numReaders numWriters readCount writeCount)).threads =
      numReaders.toNat * f (Worker.spawn .reader readCount) +
        numWriters.toNat * f (Worker.spawn .writer writeCount) := by
  simp [start, spawned, tally_append, tally_replicate]

/-- Once all threads have ended nothing is left to do and every thread has made
all the operations of its loop. -/
theorem allDone_totals (m : Machine) (hc : m.Consistent) (hd : m.allDone = true) :
    tally Worker.remaining m.threads = 0 ∧
    tally Worker.readsDone m.threads = tally Worker.readQuota m.threads ∧
    tally Worker.writesDone m.threads = tally Worker.writeQuota m.threads := by
  simp [Machine.allDone] at hd
  have key : ∀ w ∈ m.threads, w.frame.holding = false ∧ w.frame.i = max w.count 0 := by
    intro w hw
    have h1 := hd w hw
    have h2 := hc.2.2.2 w hw
    simp [Worker.finished] at h1
    refine ⟨h1.1, ?_⟩
    omega
  refine ⟨?_, ?_, ?_⟩
  · apply tally_eq_zero
    intro w hw
    have := key w hw
    simp [Worker.remaining, this.1]
    omega
  · apply tally_congr
    intro w hw
    simp [Worker.readsDone, Worker.readQuota, (key w hw).2]
  · apply tally_congr
    intro w hw
    simp [Worker.writesDone, Worker.writeQuota, (key w hw).2]

/-- A thread that has ended makes no further call. -/
theorem stepAt_none_of_allDone (m : Machine) (hd : m.allDone = true) (n : Nat) :
    stepAt n m = none := by
  simp [Machine.allDone] at hd
  unfold stepAt
  cases hw : m.threads[n]? with
  | none => rfl
  | some w =>
    have h1 := hd w (List.getElem?_mem hw)
    obtain ⟨role, count, ⟨i, holding⟩⟩ := w
    simp [Worker.finished] at h1
    obtain ⟨h2, h3⟩ := h1
    subst h2
    have h4 : ¬ i < count := by omega
    cases role <;> simp [Worker.next, reader, writer, h4]

/-- In a consistent state the number of calls left is not negative. -/
theorem remaining_nonneg (m : Machine) (hc : m.Consistent) :
    0 ≤ tally Worker.remaining m.threads := by
  apply tally_nonneg
  intro w hw
  have := hc.2.2.2 w hw
  unfold Worker.remaining
  split
  · rename_i hh
    have := this.2.1 hh
    omega
  · split <;> omega

/-- From every consistent state the threads can run to the end, in exactly as
many lock calls as are left. -/
theorem run_to_end (k : Nat) :
    ∀ m : Machine, m.Consistent → tally Worker.remaining m.threads = k →
      ∃ ns m1, exec ns m = some m1 ∧ m1.allDone = true ∧ ns.length = k := by
  induction k with
  | zero =>
    intro m hc hk
    refine ⟨[], m, rfl, ?_, rfl⟩
    rcases consistent_progress m hc with hd | ⟨n, hn⟩
    · exact hd
    · cases hs : stepAt n m with
      | none => simp [hs] at hn
      | some r =>
        obtain ⟨m2, op, b⟩ := r
        have h1 := (step_accounting n m m2 op b hs hc).1
        have h2 := remaining_nonneg m2 (consistent_step n m m2 op b hs hc)
        simp at hk
        omega
  | succ k ih =>
    intro m hc hk
    rcases consistent_progress m hc with hd | ⟨n, hn⟩
    · have := (allDone_totals m hc hd).1
      simp at hk
      omega
    · cases hs : stepAt n m with
      | none => simp [hs] at hn
      | some r =>
        obtain ⟨m2, op, b⟩ := r
        have h1 := (step_accounting n m m2 op b hs hc).1
        have hc2 := consistent_step n m m2 op b hs hc
        obtain ⟨ns, m1, he, hd, hl⟩ := ih m2 hc2 (by push_cast at hk ⊢; omega)
        exact ⟨n :: ns, m1, by simp [exec, hs, he], hd, by simp [hl]⟩

/-- Running one interleaving after another. -/
theorem exec_append (xs ys : List Nat) :
    ∀ m m1 : Machine, exec xs m = some m1 → exec (xs ++ ys) m = exec ys m1 := by
  induction xs with
  | nil =>
    intro m m1 h
    simp [exec] at h
    simp [h]
  | cons n ns ih =>
    intro m m1 h
    cases hs : stepAt n m with
    | none => simp [exec, hs] at h
    | some r =>
      simp [exec, hs] at h
      simp [exec, hs]
      exact ih _ _ h

/-- C8: `R` readers and `W` writers of `k` iterations each on a fresh lock.  In
every reachable state either all threads have ended or some thread can make
its next lock call; a state in which no thread can make a call has all `R * k`
reads and all `W * k` writes completed; no interleaving is longer than
`2 * (R + W) * k` calls, and each can be continued to such a final state, the
whole then being exactly `2 * (R + W) * k` calls long. -/
theorem deadlock_free (R W k : Nat) (ns : List Nat) (m : Machine)
    (h : exec ns (start (spawned R W k k)) = some m) :
    (m.allDone = true ∨ ∃ n, (stepAt n m).isSome = true) ∧
    ((∀ n, stepAt n m = none) →
      m.allDone = true ∧ tally Worker.readsDone m.threads = R * k ∧
        tally Worker.writesDone m.threads = W * k) ∧
    ns.length ≤ 2 * (R + W) * k ∧
    (∃ ns1 m1, exec (ns ++ ns1) (start (spawned R W k k)) = some m1 ∧
      (∀ n, stepAt n m1 = none) ∧ m1.allDone = true ∧
      tally Worker.readsDone m1.threads = R * k ∧
      tally Worker.writesDone m1.threads = W * k ∧
      (ns ++ ns1).length = 2 * (R + W) * k) := by
  have hc0 := consistent_start (spawned R W k k)
  have hc := consistent_exec ns _ _ h hc0
  have hacc := exec_accounting ns _ _ h hc0
  have hrem0 : tally Worker.remaining (start (spawned R W k k)).threads = 2 * (R + W) * k := by
    rw [tally_spawned]
    simp [Worker.remaining, Worker.spawn]
    by_cases hk : 0 < k
    · simp [hk]
      ring
    · have : k = 0 := by omega
      simp [this]
  have hrq0 : tally Worker.readQuota (start (spawned R W k k)).threads = R * k := by
    rw [tally_spawned]
    simp [Worker.readQuota, Worker.spawn]
  have hwq0 : tally Worker.writeQuota (start (spawned R W k k)).threads = W * k := by
    rw [tally_spawned]
    simp [Worker.writeQuota, Worker.spawn]
  have hdone : ∀ m2 : Machine, m2.Consistent →
      tally Worker.readQuota m2.threads = R * k → tally Worker.writeQuota m2.threads = W * k →
      m2.allDone = true →
      tally Worker.readsDone m2.threads = R * k ∧ tally Worker.writesDone m2.threads = W * k := by
    intro m2 hc2 hr hw hd
    have := allDone_totals m2 hc2 hd
    exact ⟨this.2.1.trans hr, this.2.2.trans hw⟩
  refine ⟨consistent_progress m hc, ?_, ?_, ?_⟩
  · intro hstuck
    have hd : m.allDone = true := by
      rcases consistent_progress m hc with hd | ⟨n, hn⟩
      · exact hd
      · simp [hstuck n] at hn
    exact ⟨hd, hdone m hc (hacc.2.1.trans hrq0) (hacc.2.2.trans hwq0) hd⟩
  · have h1 := remaining_nonneg m hc
    have h2 := hacc.1
    rw [hrem0] at h2
    have : (ns.length : Int) ≤ 2 * (R + W) * k := by omega
    exact_mod_cast this
  · have h1 := remaining_nonneg m hc
    obtain ⟨ns1, m1, he, hd, hl⟩ :=
      run_to_end (tally Worker.remaining m.threads).toNat m hc (by omega)
    have he2 : exec (ns ++ ns1) (start (spawned R W k k)) = some m1 := by
      rw [exec_append ns ns1 _ _ h, he]
    have hc1 := consistent_exec ns1 _ _ he hc
    have hacc1 := exec_accounting ns1 _ _ he hc
    refine ⟨ns1, m1, he2, stepAt_none_of_allDone m1 hd, hd, ?_, ?_, ?_⟩
    · exact (hdone m1 hc1 (hacc1.2.1.trans (hacc.2.1.trans hrq0))
        (hacc1.2.2.trans (hacc.2.2.trans hwq0)) hd).1
    · exact (hdone m1 hc1 (hacc1.2.1.trans (hacc.2.1.trans hrq0))
        (hacc1.2.2.trans (hacc.2.2.trans hwq0)) hd).2
    · have h2 := hacc.1
      rw [hrem0] at h2
      have : (((ns ++ ns1).length : Nat) : Int) = 2 * (R + W) * k := by
        simp [hl]
        omega
      exact_mod_cast this

/-- The scenario `R = 5`, `W = 2`, `k = 3`: the five readers read together three
times, then the two writers take turns; after these 42 lock calls every thread
has ended, with 15 reads and 6 writes completed. -/
theorem deadlock_free_witness :
    exec [0, 1, 2, 3, 4, 0, 1, 2, 3, 4, 0, 1, 2, 3, 4, 0, 1, 2, 3, 4, 0, 1, 2, 3, 4,
          0, 1, 2, 3, 4, 5, 5, 6, 6, 5, 5, 6, 6, 5, 5, 6, 6] (start (spawned 5 2 3 3)) =
      some ⟨⟨0, false⟩,
        [⟨.reader, 3, ⟨3, false⟩⟩, ⟨.reader, 3, ⟨3, false⟩⟩, ⟨.reader, 3, ⟨3, false⟩⟩,
         ⟨.reader, 3, ⟨3, false⟩⟩, ⟨.reader, 3, ⟨3, false⟩⟩, ⟨.writer, 3, ⟨3, false⟩⟩,
         ⟨.writer, 3, ⟨3, false⟩⟩]⟩ ∧
    tally Worker.readsDone
        [⟨.reader, 3, ⟨3, false⟩⟩, ⟨.reader, 3, ⟨3, false⟩⟩, ⟨.reader, 3, ⟨3, false⟩⟩,
         ⟨.reader, 3, ⟨3, false⟩⟩, ⟨.reader, 3, ⟨3, false⟩⟩, ⟨.writer, 3, ⟨3, false⟩⟩,
         ⟨.writer, 3, ⟨3, false⟩⟩] = 15 ∧
    tally Worker.writesDone
        [⟨.reader, 3, ⟨3, false⟩⟩, ⟨.reader, 3, ⟨3, false⟩⟩, ⟨.reader, 3, ⟨3, false⟩⟩,
         ⟨.reader, 3, ⟨3, false⟩⟩, ⟨.reader, 3, ⟨3, false⟩⟩, ⟨.writer, 3, ⟨3, false⟩⟩,
         ⟨.writer, 3, ⟨3, false⟩⟩] = 6 :=
  have hd := deadlock_free 5 2 3
    [0, 1, 2, 3, 4, 0, 1, 2, 3, 4, 0, 1, 2, 3, 4, 0, 1, 2, 3, 4, 0, 1, 2, 3, 4,
     0, 1, 2, 3, 4, 5, 5, 6, 6, 5, 5, 6, 6, 5, 5, 6, 6]
    ⟨⟨0, false⟩,
      [⟨.reader, 3, ⟨3, false⟩⟩, ⟨.reader, 3, ⟨3, false⟩⟩, ⟨.reader, 3, ⟨3, false⟩⟩,
       ⟨.reader, 3, ⟨3, false⟩⟩, ⟨.reader, 3, ⟨3, false⟩⟩, ⟨.writer, 3, ⟨3, false⟩⟩,
       ⟨.writer, 3, ⟨3, false⟩⟩]⟩ (by decide)
  have hs := hd.2.1 (stepAt_none_of_allDone _ (by decide))
  ⟨by decide, hs.2.1, hs.2.2⟩

end Lr2Parallel
